import Mathlib

/-!
Verification of the text-chunking pipeline in `Data Cleaning/chunk_jsonl.py`
(Architect-RAG-LLM-Assistant).

The Python source is shallowly embedded: pure functions become Lean
functions over `String` / `List Char` / `List Nat`; the tokenizer
(`transformers.AutoTokenizer`, an external collaborator with interface
`encode : String → token ids`, `decode : token ids → String`) is a
parameter `enc` / `dec` of the functions that use it; file processing
becomes a fold over a list of parsed records.  Python strings are modelled
as ASCII strings (the character classes `\s`, `\d`, `\W`, `isalpha` are
given their ASCII meaning).  The regular expressions used by the code are
modelled by a small pattern AST (`Rgx`) together with a backtracking
matcher that mirrors Python `re` semantics for exactly the constructs the
code's patterns use (case-insensitive literals, character classes, greedy
star, `^`/`$` in MULTILINE mode).
-/

/-- Python `\s` for ASCII text: space, tab, newline, carriage return,
vertical tab, form feed. -/
def isPySpace (c : Char) : Bool :=
  c = ' ' || c = '\t' || c = '\n' || c = '\r' || c = '\x0b' || c = '\x0c'

/-- Python word character (`\w`) for ASCII text: letters, digits, underscore. -/
def isPyWord (c : Char) : Bool :=
  c.isAlphanum || c = '_'

/-- Remove the trailing run of Python whitespace from a list of characters
(the tail half of Python `str.strip()`). -/
def stripTrail : List Char → List Char
  | [] => []
  | c :: r =>
    match stripTrail r with
    | [] => if isPySpace c then [] else [c]
    | d :: r' => c :: d :: r'

/-- Python `str.strip()`: remove leading and trailing whitespace. -/
def pyStrip (l : List Char) : List Char :=
  stripTrail (l.dropWhile isPySpace)

/-- Python `str.strip()` on `String`. -/
def pyStripStr (s : String) : String :=
  ⟨pyStrip s.data⟩

mutual

/-- Replace every maximal run of Python whitespace by a single space:
the substitution `re.sub(r"\s+", " ", t)` from `clean_boilerplate`. -/
def collapseWs : List Char → List Char
  | [] => []
  | c :: r => if isPySpace c then ' ' :: collapseAfterWs r else c :: collapseWs r

/-- State of `collapseWs` inside a whitespace run: the run's remaining
whitespace is dropped (the single replacement space was already emitted). -/
def collapseAfterWs : List Char → List Char
  | [] => []
  | c :: r => if isPySpace c then collapseAfterWs r else c :: collapseWs r

end

/-- Pattern AST covering the regular-expression constructs appearing in
the chunker's patterns: case-insensitive literals, single characters and
greedy star over a character class, and the `^` / `$` anchors with
`re.MULTILINE` semantics.  `Python .{1,3}` and the non-MULTILINE anchors
used by `is_boilerplate` are modelled separately. -/
inductive Rgx where
  | eps : Rgx
  | lit : List Char → Rgx
  | one : (Char → Bool) → Rgx
  | star : (Char → Bool) → Rgx
  | bol : Rgx
  | eol : Rgx
  | seq : Rgx → Rgx → Rgx

/-- Case-insensitive literal test: is `pat` (given lowercase) a prefix of
the text suffix `sfx`?  Mirrors `re.IGNORECASE` literal matching for
ASCII. -/
def ciStarts (pat : List Char) (sfx : List Char) : Bool :=
  (sfx.take pat.length).map Char.toLower = pat

/-- All relative end offsets of a match of the pattern against the text
suffix `sfx`, in the order a Python backtracking engine tries them
(greedy: longest first); the head of the list is the end `re` reports.
`bolHere` says whether the suffix starts the text or follows a newline
(`^` in MULTILINE mode); `$` matches at the end of the text or before a
newline. -/
def rgxEnds (sfx : List Char) (bolHere : Bool) : Rgx → List Nat
  | .eps => [0]
  | .lit pat => if ciStarts pat sfx then [pat.length] else []
  | .one C =>
    match sfx with
    | c :: _ => if C c then [1] else []
    | [] => []
  | .star C =>
    let m := (sfx.takeWhile C).length
    (List.range (m + 1)).map (fun d => m - d)
  | .bol => if bolHere then [0] else []
  | .eol => if sfx.isEmpty || sfx.head? = some '\n' then [0] else []
  | .seq a b =>
    (rgxEnds sfx bolHere a).flatMap (fun d =>
      (rgxEnds (sfx.drop d) (if d = 0 then bolHere else sfx.get? (d - 1) = some '\n') b).map
        (d + ·))

/-- One pass of `re.sub(pat, "", text)`: scan positions left to right in
the original text (represented by its remaining suffix plus the `^`
status of the current position); at the first position where the pattern
matches, drop the (greedily) matched span and continue after it. -/
def rgxSubLoop (pat : Rgx) : Nat → List Char → Bool → List Char
  | 0, _, _ => []
  | _ + 1, [], _ => []
  | fuel + 1, c :: rest, bolHere =>
    match (rgxEnds (c :: rest) bolHere pat).head? with
    | some e =>
      if 0 < e then
        rgxSubLoop pat fuel ((c :: rest).drop e) ((c :: rest).get? (e - 1) = some '\n')
      else c :: rgxSubLoop pat fuel rest (c = '\n')
    | none => c :: rgxSubLoop pat fuel rest (c = '\n')

/-- `re.sub(pat, "", text)` with empty replacement (a scan of the whole
text starting at position 0, where `^` holds; the scan consumes at least
one character per step, so `text.length` fuel always completes it). -/
def rgxSub (pat : Rgx) (text : List Char) : List Char :=
  rgxSubLoop pat text.length text true

/-- Greedy `C+` as the code's patterns use it (`\d+`). -/
def rgxPlus (C : Char → Bool) : Rgx :=
  .seq (.one C) (.star C)

/-- Python `.` (any character except newline). -/
def isDotChar (c : Char) : Bool :=
  c != '\n'

/-- A pattern of the form `lit.*`: a case-insensitive literal followed by
the greedy rest-of-line. -/
def rgxLitToEol (lit : List Char) : Rgx :=
  .seq (.lit lit) (.star isDotChar)

namespace ChunkingConfig

/-- `MODEL_MAX_TOKENS = 512`. -/
def MODEL_MAX_TOKENS : Nat := 512

/-- `SAFETY_MARGIN = 12`. -/
def SAFETY_MARGIN : Nat := 12

/-- `ALLOWED_TOKENS = MODEL_MAX_TOKENS - SAFETY_MARGIN`. -/
def ALLOWED_TOKENS : Nat := MODEL_MAX_TOKENS - SAFETY_MARGIN

/-- `CHUNK_TOKENS = min(1200, ALLOWED_TOKENS)`. -/
def CHUNK_TOKENS : Nat := min 1200 ALLOWED_TOKENS

/-- `OVERLAP = 60`. -/
def OVERLAP : Nat := 60

/-- `MIN_TOKENS_PER_CHUNK = 50`. -/
def MIN_TOKENS_PER_CHUNK : Nat := 50

/-- `MIN_CHAR_LENGTH = 100`. -/
def MIN_CHAR_LENGTH : Nat := 100

/-- The ten `BOILERPLATE_PATTERNS`, in declaration order.  The first five
are unanchored `literal.*` patterns; the last five are `^\s* … \s*$` /
`^\s*copyright.*$` whole-line patterns relying on `re.MULTILINE`. -/
def BOILERPLATE_PATTERNS : List Rgx :=
  [ rgxLitToEol "national building code".data
  , rgxLitToEol "government of india".data
  , rgxLitToEol "all rights reserved".data
  , rgxLitToEol "bureau of indian standards".data
  , rgxLitToEol "www.wbdg.org".data
  , .seq .bol (.seq (.star isPySpace) (.seq (.lit "table of contents".data)
      (.seq (.star isPySpace) .eol)))
  , .seq .bol (.seq (.star isPySpace) (.seq (.lit "copyright".data)
      (.seq (.star isDotChar) .eol)))
  , .seq .bol (.seq (.star isPySpace) (.seq (.lit "page ".data)
      (.seq (rgxPlus Char.isDigit) (.seq (.lit " of ".data)
        (.seq (rgxPlus Char.isDigit) (.seq (.star isPySpace) .eol))))))
  , .seq .bol (.seq (.star isPySpace) (.seq (.lit "confidential".data)
      (.seq (.star isPySpace) .eol)))
  , .seq .bol (.seq (.star isPySpace) (.seq (.lit "proprietary".data)
      (.seq (.star isPySpace) .eol)))
  ]

end ChunkingConfig

/-- The boilerplate-removal pass of `clean_boilerplate`: each pattern is
applied as a removal substitution, in declaration order, each to the
result of the previous one. -/
def boilerSub (l : List Char) : List Char :=
  ChunkingConfig.BOILERPLATE_PATTERNS.foldl (fun t pat => rgxSub pat t) l

/-- `clean_boilerplate(text)`: return `""` for falsy input, otherwise
apply the boilerplate substitutions, collapse whitespace runs to single
spaces and strip. -/
def clean_boilerplate (text : String) : String :=
  if text = "" then ""
  else ⟨pyStrip (collapseWs (boilerSub text.data))⟩

/-- Python `re.match(r"^C+$", s)` for a character class `C` without
`re.MULTILINE`: a nonempty prefix of class characters followed by `$`,
where `$` accepts the end of the string or the position before a single
final newline. -/
def matchClassPlusDollar (C : Char → Bool) (s : List Char) : Bool :=
  (decide (s ≠ []) && s.all C) ||
  (match s.getLast? with
   | some c => c = '\n' && decide (s.dropLast ≠ []) && s.dropLast.all C
   | none => false)

/-- Python `re.match(r"^.{1,3}$", s)`: one to three non-newline
characters spanning the whole string (allowing one final newline consumed
by `$`). -/
def matchDotOneToThree (s : List Char) : Bool :=
  let core := fun (b : List Char) =>
    decide (1 ≤ b.length) && decide (b.length ≤ 3) && b.all isDotChar
  core s ||
  (match s.getLast? with
   | some c => c = '\n' && core s.dropLast
   | none => false)

/-- `is_boilerplate(text)`.  The four `MEANINGLESS_PATTERNS` are checked
with `re.match(…, flags=re.IGNORECASE)`; note that `re.IGNORECASE` makes
the second pattern `^[A-Z\s]+$` match any pure-letters-and-whitespace
string, not only all-caps ones.  The final float comparison
`alpha_chars / max(1, len(text)) < 0.3` is modelled exactly over the
rationals as `10 * alpha_chars < 3 * max 1 len` (the two differ only when
the ratio is within one double ulp of 0.3, impossible for list lengths
below 10^15). -/
def is_boilerplate (text : String) : Bool :=
  if text = "" || (pyStrip text.data).length < 10 then true
  else if matchClassPlusDollar (fun c => c.isDigit || c = '.' || isPySpace c) text.data then true
  else if matchClassPlusDollar (fun c => c.isAlpha || isPySpace c) text.data then true
  else if matchClassPlusDollar (fun c => !isPyWord c) text.data then true
  else if matchDotOneToThree text.data then true
  else if 10 * (text.data.filter Char.isAlpha).length < 3 * max 1 text.data.length then true
  else false

mutual

/-- Python `re.split(r"[.!?]+", s)` used by the sentence heuristic of
`is_quality_chunk`: split at every maximal run of separator characters;
boundary runs contribute empty parts, exactly as `re.split` does. -/
def splitSeps (sep : Char → Bool) : List Char → List (List Char)
  | [] => [[]]
  | c :: r =>
    if sep c then [] :: splitSepsInSep sep r
    else
      match splitSeps sep r with
      | [] => [[c]]
      | w :: ws => (c :: w) :: ws

/-- State of `splitSeps` inside a separator run: remaining separators of
the run are skipped; the first non-separator starts the next part. -/
def splitSepsInSep (sep : Char → Bool) : List Char → List (List Char)
  | [] => [[]]
  | c :: r =>
    if sep c then splitSepsInSep sep r
    else
      match splitSeps sep r with
      | [] => [[c]]
      | w :: ws => (c :: w) :: ws

end

/-- `is_quality_chunk(chunk)`, parameterized by the tokenizer's `encode`
(`cached_token_len(chunk) = len(tokenizer.encode(chunk))`). -/
def is_quality_chunk (enc : String → List Nat) (chunk : String) : Bool :=
  if chunk = "" then false
  else if (enc chunk).length < ChunkingConfig.MIN_TOKENS_PER_CHUNK then false
  else if (pyStrip chunk.data).length < ChunkingConfig.MIN_CHAR_LENGTH then false
  else if is_boilerplate chunk then false
  else if matchClassPlusDollar (fun c => c.isDigit || !isPyWord c || isPySpace c) chunk.data then false
  else if (splitSeps (fun c => c = '.' || c = '!' || c = '?') chunk.data).length < 2
          && 200 < chunk.data.length then false
  else true

/-- Result of `sliding_windows`: `invalidWindow` models the
`ValueError("window must be > 0")`, `diverges` models a loop that made no
progress within its (sufficient) fuel bound, `ok` the yielded slices. -/
inductive WindowResult (α : Type) where
  | invalidWindow : WindowResult α
  | diverges : WindowResult α
  | ok : List (List α) → WindowResult α
deriving DecidableEq

/-- The `while i < n` loop of `sliding_windows`: at index `i`, yield
`token_ids[i : min(i+window, n)]`, stop if the slice reached the end,
else continue at `max(0, j - overlap)` (which is `((j : Int) - overlap).toNat`). -/
def windowsLoop (ids : List α) (window : Nat) (overlap : Int) : Nat → Nat → Option (List (List α))
  | 0, _ => none
  | fuel + 1, i =>
    let n := ids.length
    if i < n then
      let j := min (i + window) n
      let slice := (ids.drop i).take (j - i)
      if n ≤ j then some [slice]
      else
        match windowsLoop ids window overlap fuel ((j : Int) - overlap).toNat with
        | none => none
        | some rest => some (slice :: rest)
    else some []

/-- `sliding_windows(token_ids, window, overlap)`: raise for
`window <= 0`, otherwise run the loop (fuel `n + 1` iterations, enough
whenever the loop makes forward progress). -/
def sliding_windows (ids : List α) (window overlap : Int) : WindowResult α :=
  if window ≤ 0 then .invalidWindow
  else
    match windowsLoop ids window.toNat overlap (ids.length + 1) 0 with
    | none => .diverges
    | some l => .ok l

/-- The `(start, end)` offset pairs traversed by `windowsLoop`, used to
state coverage and overlap properties of the yielded slices. -/
def windowOffsetsLoop (n W : Nat) (V : Int) : Nat → Nat → List (Nat × Nat)
  | 0, _ => []
  | fuel + 1, i =>
    if i < n then
      let j := min (i + W) n
      (i, j) :: (if n ≤ j then [] else windowOffsetsLoop n W V fuel ((j : Int) - V).toNat)
    else []

/-- Offset pairs of `sliding_windows` over a sequence of length `n`. -/
def slidingWindowOffsets (n : Nat) (W V : Int) : List (Nat × Nat) :=
  if W ≤ 0 then [] else windowOffsetsLoop n W.toNat V (n + 1) 0

/-- The slice `ids[p.1 : p.2]`. -/
def sliceAt (ids : List α) (p : Nat × Nat) : List α :=
  (ids.drop p.1).take (p.2 - p.1)

/-- The slices of `sliding_windows` in the non-error, terminating case
(the only case reached by the chunker, which always passes
`window = ALLOWED_TOKENS = 500 > 0` and `overlap = 60`). -/
def windowsList (ids : List α) (window overlap : Int) : List (List α) :=
  match sliding_windows ids window overlap with
  | .ok l => l
  | _ => []

/-- `hash_text(text)`: the MD5 hex digest is modelled as an injective
content digest (digest collisions are not modelled), so the digest of a
text is represented by the text itself. -/
def hash_text (text : String) : String := text

/-- One input line of a cleaned JSONL file (§3 PageRecord). -/
structure PageRecord where
  doc_id : String
  file : String
  category : String
  page_number : Int
  text : String
deriving DecidableEq

/-- One output chunk (§3 ChunkRecord). -/
structure ChunkRecord where
  doc_id : String
  file : String
  category : String
  page_span : Int × Int
  text : String
  chunk_hash : String
deriving DecidableEq

/-- `chunk_text_no_truncation(text)`: reject boilerplate, tokenize
(`safe_tokenize` failure is the `ids = []` case), window, decode each
slice (`decode` strips), keep nonempty quality chunks. -/
def chunk_text_no_truncation (enc : String → List Nat) (dec : List Nat → String)
    (text : String) : List String :=
  if text = "" || is_boilerplate text then []
  else
    let ids := enc text
    if ids = [] then []
    else
      ((windowsList ids (ChunkingConfig.ALLOWED_TOKENS : Int) (ChunkingConfig.OVERLAP : Int)).map
          (fun sl => pyStripStr (dec sl))).filter
        (fun c => decide (c ≠ "") && is_quality_chunk enc c)

/-- Build one output record from the parent PageRecord, a chunk text and
its hash (`page_span = [page_number, page_number]`). -/
def mkChunkRecord (rec : PageRecord) (text h : String) : ChunkRecord :=
  { doc_id := rec.doc_id, file := rec.file, category := rec.category,
    page_span := (rec.page_number, rec.page_number), text := text, chunk_hash := h }

/-- The body of `process_record`'s per-chunk loop, acting on the
accumulator (emitted records, `seen_hashes`): skip empty chunks, skip
duplicate hashes, register the hash, then either re-window an oversized
chunk (emitting quality sub-chunks, whose hashes are *not* registered)
or emit the chunk directly. -/
def recStep (enc : String → List Nat) (dec : List Nat → String) (rec : PageRecord)
    (acc : List ChunkRecord × List String) (chunk : String) : List ChunkRecord × List String :=
  if chunk = "" then acc
  else
    let h := hash_text chunk
    if h ∈ acc.2 then acc
    else
      let seen' := h :: acc.2
      if ChunkingConfig.ALLOWED_TOKENS < (enc chunk).length then
        let subs := ((windowsList (enc chunk) (ChunkingConfig.ALLOWED_TOKENS : Int)
            (ChunkingConfig.OVERLAP : Int)).map (fun ids => pyStripStr (dec ids))).filter
          (is_quality_chunk enc)
        (acc.1 ++ subs.map (fun sc => mkChunkRecord rec sc (hash_text sc)), seen')
      else (acc.1 ++ [mkChunkRecord rec chunk h], seen')

/-- `process_record(rec, seen_hashes)`: clean the text, reject
boilerplate, then run the per-chunk loop over
`chunk_text_no_truncation`.  Returns the emitted records together with
the updated `seen_hashes` (mutated in place in the source). -/
def process_record (enc : String → List Nat) (dec : List Nat → String)
    (rec : PageRecord) (seen : List String) : List ChunkRecord × List String :=
  let text := clean_boilerplate rec.text
  if text = "" || is_boilerplate text then ([], seen)
  else (chunk_text_no_truncation enc dec text).foldl (recStep enc dec rec) ([], seen)

/-- The per-line loop of `process_single_file`: each line either fails to
parse (`none`, counted as skipped — the dedup state is unchanged) or is a
PageRecord processed by `process_record` against the shared
`seen_hashes`.  Returns all records written to the output file and the
final `seen_hashes`. -/
def processLines (enc : String → List Nat) (dec : List Nat → String) :
    List (Option PageRecord) → List String → List ChunkRecord × List String
  | [], seen => ([], seen)
  | o :: rest, seen =>
    match o with
    | none => processLines enc dec rest seen
    | some rec =>
      let pr := process_record enc dec rec seen
      let tail := processLines enc dec rest pr.2
      (pr.1 ++ tail.1, tail.2)

/-- `n` copies of a character block concatenated (used to build concrete
test texts). -/
def dupCat (s : List Char) : Nat → List Char
  | 0 => []
  | n + 1 => s ++ dupCat s n

/-- Concrete page text `"t3t3…"` (120 characters) for the oversized-chunk
counterexamples. -/
def tPage : String := ⟨dupCat ['t', '3'] 60⟩

/-- Concrete decoded chunk text `"a1a1…"` (120 characters) whose
re-tokenization is oversized in the counterexample tokenizers. -/
def tOversized : String := ⟨dupCat ['a', '1'] 60⟩

/-- Concrete sub-chunk text `"b2b2…"` (120 characters) produced twice by
the re-windowing branch in the counterexample tokenizers. -/
def tSub : String := ⟨dupCat ['b', '2'] 60⟩

/-- Concrete quality page text `"q5q5…"` (120 characters) that passes all
filters under the identity tokenizer. -/
def tQuality : String := ⟨dupCat ['q', '5'] 60⟩

/-- A tokenizer (an instance of the spec's external `encode` capability)
exhibiting decode-side token growth: the decoded chunk `tOversized`
re-encodes to 501 tokens. -/
def encGrow (s : String) : List Nat :=
  if s = tPage then List.replicate 100 7
  else if s = tOversized then List.replicate 501 8
  else if s = tSub then List.replicate 50 9
  else []

/-- The `decode` half of the growth tokenizer: both windows of the
oversized chunk's 501 tokens decode to the same text `tSub`. -/
def decGrow (ids : List Nat) : String :=
  if ids = List.replicate 100 7 then tOversized
  else if ids = List.replicate 500 8 then tSub
  else if ids = List.replicate 61 8 then tSub
  else ""

/-- A second growth tokenizer whose sub-chunk text `tSub` itself encodes
to 501 tokens (above `ALLOWED_TOKENS`). -/
def encGrow2 (s : String) : List Nat :=
  if s = tPage then List.replicate 100 7
  else if s = tOversized then List.replicate 501 8
  else if s = tSub then List.replicate 501 9
  else []

/-- A lossless (identity) tokenizer: one token per character. -/
def encId (s : String) : List Nat :=
  s.data.map Char.toNat

/-- Decoder of the lossless tokenizer. -/
def decId (ids : List Nat) : String :=
  ⟨ids.map (fun n => Char.ofNat n)⟩

/-- PageRecord used by the oversized-chunk counterexamples. -/
def recPage : PageRecord :=
  ⟨"d", "f", "c", 1, tPage⟩

/-- The fifty `A`s of the spec's end-to-end example. -/
def fiftyA : String := ⟨List.replicate 50 'A'⟩

/-- The sixty `B`s of the spec's end-to-end example. -/
def sixtyB : String := ⟨List.replicate 60 'B'⟩

/-- The input PageRecord of the spec's end-to-end example (§8). -/
def recExample : PageRecord :=
  ⟨"d1", "f.pdf", "c", 3, "Page 3 of 10 " ++ fiftyA ++ ". " ++ sixtyB ++ "."⟩

/-- PageRecord holding the quality text `tQuality`. -/
def recQuality : PageRecord :=
  ⟨"d", "f", "c", 1, tQuality⟩

/-- A parsed line is oversize-free when every candidate chunk of its
record re-encodes to at most `ALLOWED_TOKENS` tokens, so that
`process_record` never enters the re-windowing branch on it. -/
def noOversize (enc : String → List Nat) (dec : List Nat → String)
    (o : Option PageRecord) : Bool :=
  match o with
  | none => true
  | some rec =>
    (chunk_text_no_truncation enc dec (clean_boilerplate rec.text)).all
      (fun c => (enc c).length ≤ ChunkingConfig.ALLOWED_TOKENS)

/-! ### Properties of the Token Windower (`sliding_windows`) -/

theorem windowsLoop_eq_offsets (ids : List α) (W V : Nat) (hW : 0 < W) (hV : V < W) :
    ∀ fuel i, ids.length - i < fuel →
      windowsLoop ids W (V : Int) fuel i =
        some ((windowOffsetsLoop ids.length W (V : Int) fuel i).map (sliceAt ids))
  | 0, i, h => absurd h (by omega)
  | fuel + 1, i, h => by
    simp only [windowsLoop, windowOffsetsLoop]
    by_cases hi : i < ids.length
    · simp only [hi, if_true]
      by_cases hj : ids.length ≤ min (i + W) ids.length
      · simp [hj, sliceAt]
      · have hlt :
            ids.length - (((min (i + W) ids.length : Nat) : Int) - (V : Int)).toNat < fuel := by
          omega
        rw [windowsLoop_eq_offsets ids W V hW hV fuel _ hlt]
        simp [hj, sliceAt]
    · simp [hi]

theorem windowOffsetsLoop_mem (n W : Nat) (V : Int) :
    ∀ fuel i p, p ∈ windowOffsetsLoop n W V fuel i → p.1 < n ∧ p.2 = min (p.1 + W) n
  | 0, i, p, h => absurd h (by simp [windowOffsetsLoop])
  | fuel + 1, i, p, h => by
    simp only [windowOffsetsLoop] at h
    by_cases hi : i < n
    · simp only [hi, if_true, List.mem_cons] at h
      rcases h with h | h
      · subst h; exact ⟨hi, rfl⟩
      · by_cases hj : n ≤ min (i + W) n
        · simp [hj] at h
        · simp only [hj, if_false] at h
          exact windowOffsetsLoop_mem n W V fuel _ p h
    · simp [hi] at h

theorem windowOffsetsLoop_cover (n W V : Nat) (hW : 0 < W) (hV : V < W) :
    ∀ fuel i, n - i < fuel → ∀ k, i ≤ k → k < n →
      ∃ p ∈ windowOffsetsLoop n W (V : Int) fuel i, p.1 ≤ k ∧ k < p.2
  | 0, i, h, _, _, _ => absurd h (by omega)
  | fuel + 1, i, h, k, hik, hkn => by
    have hi : i < n := lt_of_le_of_lt hik hkn
    simp only [windowOffsetsLoop, hi, if_true]
    by_cases hk : k < min (i + W) n
    · exact ⟨(i, min (i + W) n), List.mem_cons_self _ _, hik, hk⟩
    · have hj : ¬ n ≤ min (i + W) n := by omega
      simp only [hj, if_false]
      obtain ⟨p, hp, hpk⟩ :=
        windowOffsetsLoop_cover n W V hW hV fuel
          ((((min (i + W) n : Nat) : Int) - (V : Int)).toNat) (by omega) k (by omega) hkn
      exact ⟨p, List.mem_cons_of_mem _ hp, hpk⟩

theorem windowOffsetsLoop_head (n W : Nat) (V : Int) :
    ∀ fuel i q, (windowOffsetsLoop n W V fuel i).head? = some q → q.1 = i
  | 0, i, q, h => by simp [windowOffsetsLoop] at h
  | fuel + 1, i, q, h => by
    simp only [windowOffsetsLoop] at h
    by_cases hi : i < n
    · simp only [hi, if_true, List.head?_cons, Option.some.injEq] at h
      rw [← h]
    · simp [hi] at h

theorem windowOffsetsLoop_chain (n W V : Nat) (hW : 0 < W) (hV : V < W) :
    ∀ fuel i, List.Chain' (fun p q => q.1 + V = p.2) (windowOffsetsLoop n W (V : Int) fuel i)
  | 0, _ => by simp [windowOffsetsLoop]
  | fuel + 1, i => by
    simp only [windowOffsetsLoop]
    by_cases hi : i < n
    · simp only [hi, if_true]
      by_cases hj : n ≤ min (i + W) n
      · simp [hj]
      · simp only [hj, if_false]
        refine List.Chain'.cons' (windowOffsetsLoop_chain n W V hW hV fuel _) ?_
        intro q hq
        rw [Option.mem_def] at hq
        have hq1 : q.1 = (((min (i + W) n : Nat) : Int) - (V : Int)).toNat :=
          windowOffsetsLoop_head n W _ fuel _ q hq
        simp only [hq1]
        omega
    · simp [hi]

theorem sliding_windows_ok (ids : List α) (W V : Nat) (hW : 0 < W) (hV : V < W) :
    sliding_windows ids (W : Int) (V : Int) =
      .ok ((windowOffsetsLoop ids.length W (V : Int) (ids.length + 1) 0).map (sliceAt ids)) := by
  have h := windowsLoop_eq_offsets ids W V hW hV (ids.length + 1) 0 (by omega)
  have hW0 : ¬ ((W : Int) ≤ 0) := by omega
  simp only [sliding_windows, hW0, if_false]
  rw [show ((W : Int)).toNat = W from by omega]
  rw [h]

theorem slidingWindowOffsets_pos (n W V : Nat) (hW : 0 < W) :
    slidingWindowOffsets n (W : Int) (V : Int) = windowOffsetsLoop n W (V : Int) (n + 1) 0 := by
  have hW0 : ¬ ((W : Int) ≤ 0) := by omega
  simp only [slidingWindowOffsets, hW0, if_false]
  rw [show ((W : Int)).toNat = W from by omega]

/-- C4: for a non-empty token sequence, window `W > 0` and overlap
`0 ≤ V < W`, `sliding_windows` yields exactly the slices at the offsets
of `slidingWindowOffsets`; every slice has length at most `W`; the
offsets cover `[0, n)` with no gaps; every pair of consecutive slices
overlaps by exactly `V` tokens (the start of each next slice is `V`
before the end of the previous one); and a 1000-token input with
`W = 500`, `V = 60` yields exactly the offsets `[0,500)`, `[440,940)`,
`[880,1000)`. -/
theorem sliding_windows_spec (ids : List Nat) (W V : Nat)
    (hn : 0 < ids.length) (hW : 0 < W) (hV : V < W) :
    sliding_windows ids (W : Int) (V : Int) =
        .ok ((slidingWindowOffsets ids.length (W : Int) (V : Int)).map (sliceAt ids)) ∧
    (∀ s ∈ (slidingWindowOffsets ids.length (W : Int) (V : Int)).map (sliceAt ids),
        s.length ≤ W) ∧
    (∀ k < ids.length,
        ∃ p ∈ slidingWindowOffsets ids.length (W : Int) (V : Int), p.1 ≤ k ∧ k < p.2) ∧
    List.Chain' (fun p q => q.1 + V = p.2)
        (slidingWindowOffsets ids.length (W : Int) (V : Int)) ∧
    slidingWindowOffsets 1000 500 60 = [(0, 500), (440, 940), (880, 1000)] := by
  rw [slidingWindowOffsets_pos ids.length W V hW]
  refine ⟨sliding_windows_ok ids W V hW hV, ?_, ?_, ?_, by decide⟩
  · intro s hs
    rw [List.mem_map] at hs
    obtain ⟨p, hp, hsp⟩ := hs
    obtain ⟨hp1, hp2⟩ := windowOffsetsLoop_mem ids.length W (V : Int) _ _ p hp
    subst hsp
    simp only [sliceAt, List.length_take, List.length_drop]
    omega
  · intro k hk
    exact windowOffsetsLoop_cover ids.length W V hW hV _ 0 (by omega) k (by omega) hk
  · exact windowOffsetsLoop_chain ids.length W V hW hV _ 0

/-- Witness for C4 at the concrete input `[0,1,2]`, `W = 2`, `V = 1`. -/
theorem sliding_windows_spec_witness :
    sliding_windows [0, 1, 2] ((2 : Nat) : Int) ((1 : Nat) : Int) =
      .ok ((slidingWindowOffsets ([0, 1, 2] : List Nat).length ((2 : Nat) : Int)
        ((1 : Nat) : Int)).map (sliceAt [0, 1, 2])) :=
  (sliding_windows_spec [0, 1, 2] 2 1 (by decide) (by decide) (by decide)).1

/-- C8: `sliding_windows` fails with the invalid-window error exactly
when `W ≤ 0` (the `ValueError("window must be > 0")` of the source); for
`W > 0` this error is never raised. -/
theorem sliding_windows_invalid_iff (ids : List Nat) (W V : Int) :
    sliding_windows ids W V = WindowResult.invalidWindow ↔ W ≤ 0 := by
  simp only [sliding_windows]
  by_cases h : W ≤ 0
  · simp [h]
  · rw [if_neg h]
    constructor
    · intro hc
      cases hm : windowsLoop ids W.toNat V (ids.length + 1) 0 <;> simp [hm] at hc
    · intro hc
      exact absurd hc h

/-- C9: under the documented preconditions `W > 0`, `0 ≤ V < W`, the
windower's loop terminates on every finite token sequence, producing a
finite list of slices (the loop index strictly increases, so `n + 1`
iterations always suffice). -/
theorem sliding_windows_terminates (ids : List Nat) (W V : Nat) (hW : 0 < W) (hV : V < W) :
    ∃ slices, sliding_windows ids (W : Int) (V : Int) = WindowResult.ok slices :=
  ⟨_, sliding_windows_ok ids W V hW hV⟩

/-- Witness for C9 at the concrete input `[5, 6, 7, 8]`, `W = 3`, `V = 2`. -/
theorem sliding_windows_terminates_witness :
    ∃ slices, sliding_windows [5, 6, 7, 8] ((3 : Nat) : Int) ((2 : Nat) : Int) =
      WindowResult.ok slices :=
  sliding_windows_terminates [5, 6, 7, 8] 3 2 (by decide) (by decide)

/-- C10: under the preconditions `W > 0`, `0 ≤ V < W`, the empty token
sequence yields zero slices, and no emitted slice is ever empty. -/
theorem sliding_windows_no_empty_slice (ids : List Nat) (W V : Nat)
    (hW : 0 < W) (hV : V < W) :
    sliding_windows ([] : List Nat) (W : Int) (V : Int) = WindowResult.ok [] ∧
    (∀ l, sliding_windows ids (W : Int) (V : Int) = WindowResult.ok l →
      ∀ s ∈ l, s ≠ []) := by
  constructor
  · have h := sliding_windows_ok ([] : List Nat) W V hW hV
    simpa [windowOffsetsLoop] using h
  · intro l hl s hs
    rw [sliding_windows_ok ids W V hW hV] at hl
    injection hl with hl
    subst hl
    rw [List.mem_map] at hs
    obtain ⟨p, hp, hsp⟩ := hs
    obtain ⟨hp1, hp2⟩ := windowOffsetsLoop_mem ids.length W (V : Int) _ _ p hp
    subst hsp
    have hlen : 0 < (sliceAt ids p).length := by
      simp only [sliceAt, List.length_take, List.length_drop]
      omega
    exact List.ne_nil_of_length_pos hlen

/-- Witness for C10 at the concrete input `[1, 2]`, `W = 1`, `V = 0`. -/
theorem sliding_windows_no_empty_slice_witness :
    sliding_windows ([] : List Nat) ((1 : Nat) : Int) ((0 : Nat) : Int) =
      WindowResult.ok [] :=
  (sliding_windows_no_empty_slice [1, 2] 1 0 (by decide) (by decide)).1

/-! ### Properties of the Quality Filter (`is_boilerplate`) -/

/-- C3: evaluation of `is_boilerplate` at the failing input
`"hello world again"`: a lowercase prose string, 17 characters after
trimming (≥ 10), 100 percent of whose characters are alphabetic or
spaces (so well above the 30 percent alphabetic threshold), containing
lowercase letters (so not an all-caps heading) — yet the code returns
`true`, because `re.IGNORECASE` makes the `^[A-Z\s]+$` "all caps"
pattern match any pure-letters-and-whitespace string. -/
theorem is_boilerplate_ignorecase_bug :
    is_boilerplate "hello world again" = true ∧
    10 ≤ (pyStrip "hello world again".data).length ∧
    3 * max 1 "hello world again".data.length ≤
      10 * ("hello world again".data.filter Char.isAlpha).length ∧
    "hello world again".data.any Char.isLower = true := by
  decide

/-! ### Properties of the Text Normalizer (`clean_boilerplate`) -/

/-- C5 counterexample: `clean_boilerplate` is not idempotent.  In
`"xyz government\nof india"` the newline prevents the
`government of india.*` pattern from matching; the first pass collapses
the newline to a space, after which a second pass removes the phrase. -/
theorem clean_boilerplate_not_idempotent :
    clean_boilerplate (clean_boilerplate "xyz government\nof india") ≠
      clean_boilerplate "xyz government\nof india" := by
  decide

theorem isPySpace_space : isPySpace ' ' = true := rfl

theorem collapse_idem_all (l : List Char) :
    collapseWs (collapseWs l) = collapseWs l ∧
    collapseAfterWs (collapseAfterWs l) = collapseAfterWs l ∧
    collapseWs (collapseAfterWs l) = collapseAfterWs l := by
  induction l with
  | nil => simp [collapseWs, collapseAfterWs]
  | cons c r ih =>
    obtain ⟨ihA, ihB, ihC⟩ := ih
    by_cases hc : isPySpace c
    · simp [collapseWs, collapseAfterWs, hc, isPySpace_space, ihB, ihC]
    · simp [collapseWs, collapseAfterWs, hc, ihA]

theorem collapseAfterWs_head (l : List Char) :
    collapseAfterWs l = [] ∨
      ∃ c r, collapseAfterWs l = c :: r ∧ isPySpace c = false := by
  induction l with
  | nil => exact Or.inl rfl
  | cons c r ih =>
    by_cases hc : isPySpace c
    · simpa [collapseAfterWs, hc] using ih
    · exact Or.inr ⟨c, collapseWs r, by simp [collapseAfterWs, hc], by simpa using hc⟩

theorem dropWhile_head_not (p : Char → Bool) (x : List Char) :
    x.dropWhile p = [] ∨ ∃ c r, x.dropWhile p = c :: r ∧ p c = false := by
  induction x with
  | nil => exact Or.inl rfl
  | cons c r ih =>
    by_cases hc : p c
    · simpa [List.dropWhile_cons, hc] using ih
    · exact Or.inr ⟨c, r, by simp [List.dropWhile_cons, hc], by simpa using hc⟩

theorem dropWhile_of_head_not (p : Char → Bool) (x : List Char)
    (hx : x = [] ∨ ∃ c r, x = c :: r ∧ p c = false) :
    x.dropWhile p = x := by
  rcases hx with h | ⟨c, r, h, hc⟩
  · simp [h]
  · simp [h, List.dropWhile_cons, hc]

theorem stripTrail_head (a : Char) (l : List Char) :
    stripTrail (a :: l) = [] ∨ ∃ t, stripTrail (a :: l) = a :: t := by
  simp only [stripTrail]
  cases stripTrail l with
  | nil =>
    by_cases ha : isPySpace a
    · simp [ha]
    · simp [ha]
  | cons d r' => exact Or.inr ⟨d :: r', rfl⟩

theorem stripTrail_cons (c : Char) (r : List Char) :
    stripTrail (c :: r) =
      match stripTrail r with
      | [] => if isPySpace c then [] else [c]
      | d :: r' => c :: d :: r' := rfl

theorem stripTrail_idem (l : List Char) : stripTrail (stripTrail l) = stripTrail l := by
  induction l with
  | nil => rfl
  | cons c r ih =>
    rw [stripTrail_cons c r]
    cases hm : stripTrail r with
    | nil =>
      by_cases hc : isPySpace c
      · simp [hc, stripTrail]
      · simp [hc, stripTrail]
    | cons d r' =>
      have hdr : stripTrail (d :: r') = d :: r' := by
        rw [← hm, ih]
      rw [stripTrail_cons c (d :: r'), hdr]

theorem collapseWs_cons (c : Char) (r : List Char) :
    collapseWs (c :: r) =
      if isPySpace c then ' ' :: collapseAfterWs r else c :: collapseWs r := rfl

theorem collapseAfterWs_cons (c : Char) (r : List Char) :
    collapseAfterWs (c :: r) =
      if isPySpace c then collapseAfterWs r else c :: collapseWs r := rfl

theorem collapseWs_stripTrail (x : List Char) (hx : collapseWs x = x) :
    collapseWs (stripTrail x) = stripTrail x := by
  induction x with
  | nil => rfl
  | cons c r ih =>
    by_cases hc : isPySpace c
    · rw [collapseWs_cons, if_pos hc] at hx
      have hc' : ' ' = c := by injection hx
      have hr : collapseAfterWs r = r := by injection hx
      have hr' : collapseWs r = r := by
        conv_lhs => rw [← hr]
        rw [(collapse_idem_all r).2.2, hr]
      have ihr := ih hr'
      rw [stripTrail_cons c r]
      cases hm : stripTrail r with
      | nil => by_cases h2 : isPySpace c <;> simp [h2, collapseWs]
      | cons d r' =>
        rw [hm] at ihr
        have hrne : r ≠ [] := by
          intro h0
          rw [h0] at hm
          exact absurd hm (by simp [stripTrail])
        obtain ⟨a, t, hat⟩ := List.exists_cons_of_ne_nil hrne
        have hna : isPySpace a = false := by
          rcases collapseAfterWs_head r with h0 | ⟨e, s, hes, hens⟩
          · rw [hr] at h0; exact absurd h0 hrne
          · rw [hr, hat] at hes
            have hae : a = e := by injection hes
            rw [hae]; exact hens
        have hda : d = a := by
          rcases stripTrail_head a t with h1 | ⟨t', h1⟩
          · rw [← hat] at h1; rw [h1] at hm; exact absurd hm.symm (by simp)
          · rw [← hat] at h1; rw [h1] at hm
            injection hm with h2 _
            exact h2.symm
        have hnd : isPySpace d = false := by rw [hda]; exact hna
        have hr'c : collapseWs r' = r' := by
          rw [collapseWs_cons, if_neg (by simp [hnd])] at ihr
          injection ihr
        rw [collapseWs_cons, if_pos hc, collapseAfterWs_cons, if_neg (by simp [hnd]), hr'c, hc']
    · rw [collapseWs_cons, if_neg hc] at hx
      have hr' : collapseWs r = r := by injection hx
      have ihr := ih hr'
      rw [stripTrail_cons c r]
      cases hm : stripTrail r with
      | nil => by_cases h2 : isPySpace c <;> simp [h2, collapseWs, hc]
      | cons d r' =>
        rw [hm] at ihr
        rw [collapseWs_cons, if_neg hc, ihr]

theorem collapseWs_dropWhile (l : List Char) :
    collapseWs ((collapseWs l).dropWhile isPySpace) = (collapseWs l).dropWhile isPySpace := by
  cases l with
  | nil => rfl
  | cons c r =>
    by_cases hc : isPySpace c
    · rw [collapseWs_cons, if_pos hc, List.dropWhile_cons, if_pos (by simp [isPySpace_space])]
      rw [dropWhile_of_head_not isPySpace _ (collapseAfterWs_head r)]
      exact (collapse_idem_all r).2.2
    · rw [collapseWs_cons, if_neg hc, List.dropWhile_cons, if_neg (by simp [hc])]
      rw [collapseWs_cons, if_neg hc, (collapse_idem_all r).1]

theorem norm_idem (l : List Char) :
    pyStrip (collapseWs (pyStrip (collapseWs l))) = pyStrip (collapseWs l) := by
  have hm1c := collapseWs_dropWhile l
  have hu := collapseWs_stripTrail ((collapseWs l).dropWhile isPySpace) hm1c
  show stripTrail ((collapseWs (stripTrail ((collapseWs l).dropWhile isPySpace))).dropWhile
      isPySpace) = stripTrail ((collapseWs l).dropWhile isPySpace)
  rw [hu]
  have hhead : stripTrail ((collapseWs l).dropWhile isPySpace) = [] ∨
      ∃ c r, stripTrail ((collapseWs l).dropWhile isPySpace) = c :: r ∧
        isPySpace c = false := by
    rcases dropWhile_head_not isPySpace (collapseWs l) with h0 | ⟨c, r, hcr, hcf⟩
    · left; rw [h0]; rfl
    · rcases stripTrail_head c r with h1 | ⟨t, h1⟩
      · left; rw [hcr, h1]
      · right; exact ⟨c, t, by rw [hcr, h1], hcf⟩
  rw [dropWhile_of_head_not isPySpace _ hhead, stripTrail_idem]

/-- C5 amended: `clean_boilerplate` is idempotent on every input whose
normalized form the boilerplate substitutions leave unchanged (on other
inputs whitespace collapsing can expose a fresh pattern match, see the
counterexample).  The whitespace-collapsing and stripping passes
themselves are idempotent. -/
theorem clean_boilerplate_cond_idem (t : String)
    (h : boilerSub (clean_boilerplate t).data = (clean_boilerplate t).data) :
    clean_boilerplate (clean_boilerplate t) = clean_boilerplate t := by
  by_cases ht : t = ""
  · subst ht; rfl
  · by_cases hu : clean_boilerplate t = ""
    · rw [hu]; rfl
    · have hdata : (clean_boilerplate t).data = pyStrip (collapseWs (boilerSub t.data)) := by
        simp only [clean_boilerplate, if_neg ht]
      show (if clean_boilerplate t = "" then ""
        else (⟨pyStrip (collapseWs (boilerSub (clean_boilerplate t).data))⟩ : String)) =
          clean_boilerplate t
      rw [if_neg hu, h, hdata, norm_idem, ← hdata]

/-- Witness for C5's amended claim at the concrete input
`"hello   world"` (no boilerplate phrase, so the substitution pass fixes
its normalized form). -/
theorem clean_boilerplate_cond_idem_witness :
    boilerSub (clean_boilerplate "hello   world").data =
        (clean_boilerplate "hello   world").data ∧
    clean_boilerplate (clean_boilerplate "hello   world") =
        clean_boilerplate "hello   world" :=
  ⟨by decide, clean_boilerplate_cond_idem "hello   world" (by decide)⟩

/-! ### Properties of the Chunk Assembler (`process_record`) -/

set_option maxRecDepth 100000 in
/-- C1 counterexample: under a tokenizer with decode-side token growth
(the very edge case the re-windowing branch exists for), `process_record`
emits two ChunkRecords with the same `chunk_hash` in one run: the
oversized chunk's two windows decode to the same quality text, and
sub-chunk hashes are neither checked against nor added to `seen_hashes`. -/
theorem process_record_duplicate_hash :
    ((process_record encGrow decGrow recPage []).1.map ChunkRecord.chunk_hash =
      [hash_text tSub, hash_text tSub]) ∧
    ¬ List.Pairwise (fun a b => a ≠ b)
        ((process_record encGrow decGrow recPage []).1.map ChunkRecord.chunk_hash) := by
  decide

set_option maxRecDepth 100000 in
/-- C2 counterexample: under a tokenizer whose decode-side growth
recurs, the re-windowing branch emits sub-chunks whose own token length
(501) still exceeds `ALLOWED_TOKENS = 500` — the branch re-windows once
but never re-checks the decoded sub-chunks. -/
theorem process_record_oversized_subchunk :
    ∃ c ∈ (process_record encGrow2 decGrow recPage []).1,
      ChunkingConfig.ALLOWED_TOKENS < (encGrow2 c.text).length := by
  decide

set_option maxRecDepth 100000 in
/-- C7 counterexample: on the spec's end-to-end example input (with a
lossless tokenizer), `process_record` emits exactly one ChunkRecord, but
its text does *not* start with the fifty `A`s: the code's pattern is the
line-anchored `^\s*page \d+ of \d+\s*$`, which does not match the
mid-line prefix `"Page 3 of 10 "`, so nothing is removed. -/
theorem process_record_example_keeps_header :
    (process_record encId decId recExample []).1.length = 1 ∧
    ∀ c ∈ (process_record encId decId recExample []).1,
      c.text.data.take 50 ≠ fiftyA.data := by
  decide

set_option maxRecDepth 100000 in
/-- C7 amended: the example input yields exactly one ChunkRecord with
`page_span = [3, 3]` whose text is the *unchanged* input text — it still
begins with `"Page 3 of 10 "` followed by the fifty `A`s, because the
line-anchored boilerplate pattern does not match mid-line. -/
theorem process_record_example_spec :
    (process_record encId decId recExample []).1 =
      [⟨"d1", "f.pdf", "c", (3, 3), recExample.text, hash_text recExample.text⟩] ∧
    recExample.text.data.take 63 = ("Page 3 of 10 " ++ fiftyA).data := by
  decide

/-! ### The Deduplicator state and checkpoint resume -/

theorem recStep_snd_cases (enc : String → List Nat) (dec : List Nat → String)
    (rec : PageRecord) (acc : List ChunkRecord × List String) (chunk : String) :
    (recStep enc dec rec acc chunk).2 = acc.2 ∨
      (recStep enc dec rec acc chunk).2 = hash_text chunk :: acc.2 := by
  unfold recStep
  by_cases h1 : chunk = ""
  · simp [h1]
  · by_cases h2 : hash_text chunk ∈ acc.2
    · simp [h1, h2]
    · by_cases h3 : ChunkingConfig.ALLOWED_TOKENS < (enc chunk).length
      · simp [h1, h2, h3]
      · simp [h1, h2, h3]

theorem recStep_seen_mono (enc : String → List Nat) (dec : List Nat → String)
    (rec : PageRecord) (acc : List ChunkRecord × List String) (chunk : String)
    (x : String) (hx : x ∈ acc.2) : x ∈ (recStep enc dec rec acc chunk).2 := by
  rcases recStep_snd_cases enc dec rec acc chunk with h | h <;> rw [h]
  · exact hx
  · exact List.mem_cons_of_mem _ hx

theorem recStep_registers (enc : String → List Nat) (dec : List Nat → String)
    (rec : PageRecord) (acc : List ChunkRecord × List String) (chunk : String)
    (h : chunk ≠ "") : hash_text chunk ∈ (recStep enc dec rec acc chunk).2 := by
  unfold recStep
  by_cases h2 : hash_text chunk ∈ acc.2
  · simp [h, h2]
  · by_cases h3 : ChunkingConfig.ALLOWED_TOKENS < (enc chunk).length
    · simp [h, h2, h3]
    · simp [h, h2, h3]

theorem recStep_skip (enc : String → List Nat) (dec : List Nat → String)
    (rec : PageRecord) (acc : List ChunkRecord × List String) (chunk : String)
    (h : chunk = "" ∨ hash_text chunk ∈ acc.2) : recStep enc dec rec acc chunk = acc := by
  unfold recStep
  rcases h with h | h
  · simp [h]
  · by_cases h1 : chunk = ""
    · simp [h1]
    · simp [h1, h]

theorem foldl_recStep_seen_mono (enc : String → List Nat) (dec : List Nat → String)
    (rec : PageRecord) :
    ∀ (cs : List String) (acc : List ChunkRecord × List String) (x : String),
      x ∈ acc.2 → x ∈ (cs.foldl (recStep enc dec rec) acc).2
  | [], _, _, hx => hx
  | c :: cs, acc, x, hx =>
    foldl_recStep_seen_mono enc dec rec cs _ x (recStep_seen_mono enc dec rec acc c x hx)

theorem foldl_recStep_registers (enc : String → List Nat) (dec : List Nat → String)
    (rec : PageRecord) :
    ∀ (cs : List String) (acc : List ChunkRecord × List String) (c : String), c ∈ cs →
      c = "" ∨ hash_text c ∈ (cs.foldl (recStep enc dec rec) acc).2 := by
  intro cs
  induction cs with
  | nil => intro acc c hc; exact absurd hc (List.not_mem_nil c)
  | cons d cs ih =>
    intro acc c hc
    rcases List.mem_cons.mp hc with rfl | hc
    · by_cases hd : c = ""
      · exact Or.inl hd
      · refine Or.inr ?_
        exact foldl_recStep_seen_mono enc dec rec cs _ _
          (recStep_registers enc dec rec acc c hd)
    · exact ih _ c hc

theorem foldl_recStep_skip (enc : String → List Nat) (dec : List Nat → String)
    (rec : PageRecord) :
    ∀ (cs : List String) (acc : List ChunkRecord × List String),
      (∀ c ∈ cs, c = "" ∨ hash_text c ∈ acc.2) → cs.foldl (recStep enc dec rec) acc = acc := by
  intro cs
  induction cs with
  | nil => intro acc _; rfl
  | cons d cs ih =>
    intro acc h
    have hd := recStep_skip enc dec rec acc d (h d (List.mem_cons_self d cs))
    show (cs.foldl (recStep enc dec rec) (recStep enc dec rec acc d)) = acc
    rw [hd]
    exact ih acc (fun c hc => h c (List.mem_cons_of_mem d hc))

theorem process_record_eq (enc : String → List Nat) (dec : List Nat → String)
    (rec : PageRecord) (s : List String) :
    process_record enc dec rec s =
      (chunk_text_no_truncation enc dec (clean_boilerplate rec.text)).foldl
        (recStep enc dec rec) ([], s) := by
  unfold process_record
  by_cases hg : clean_boilerplate rec.text = "" || is_boilerplate (clean_boilerplate rec.text)
  · have hct : chunk_text_no_truncation enc dec (clean_boilerplate rec.text) = [] := by
      unfold chunk_text_no_truncation
      simp [hg]
    simp [hg, hct]
  · simp [hg]

theorem process_record_seen_mono (enc : String → List Nat) (dec : List Nat → String)
    (rec : PageRecord) (s : List String) (x : String) (hx : x ∈ s) :
    x ∈ (process_record enc dec rec s).2 := by
  rw [process_record_eq]
  exact foldl_recStep_seen_mono enc dec rec _ ([], s) x hx

theorem process_record_registers (enc : String → List Nat) (dec : List Nat → String)
    (rec : PageRecord) (s : List String) :
    ∀ c ∈ chunk_text_no_truncation enc dec (clean_boilerplate rec.text),
      c = "" ∨ hash_text c ∈ (process_record enc dec rec s).2 := by
  rw [process_record_eq]
  exact fun c hc => foldl_recStep_registers enc dec rec _ ([], s) c hc

theorem process_record_replay (enc : String → List Nat) (dec : List Nat → String)
    (rec : PageRecord) (t : List String)
    (h : ∀ c ∈ chunk_text_no_truncation enc dec (clean_boilerplate rec.text),
      c = "" ∨ hash_text c ∈ t) :
    process_record enc dec rec t = ([], t) := by
  rw [process_record_eq]
  exact foldl_recStep_skip enc dec rec _ ([], t) h

theorem processLines_seen_mono (enc : String → List Nat) (dec : List Nat → String) :
    ∀ (lines : List (Option PageRecord)) (s : List String) (x : String),
      x ∈ s → x ∈ (processLines enc dec lines s).2
  | [], _, _, hx => hx
  | none :: rest, s, x, hx => processLines_seen_mono enc dec rest s x hx
  | some rec :: rest, s, x, hx =>
    processLines_seen_mono enc dec rest _ x (process_record_seen_mono enc dec rec s x hx)

theorem processLines_candidates (enc : String → List Nat) (dec : List Nat → String) :
    ∀ (lines : List (Option PageRecord)) (s : List String) (rec : PageRecord),
      some rec ∈ lines →
      ∀ c ∈ chunk_text_no_truncation enc dec (clean_boilerplate rec.text),
        c = "" ∨ hash_text c ∈ (processLines enc dec lines s).2 := by
  intro lines
  induction lines with
  | nil => intro s rec hmem; exact absurd hmem (List.not_mem_nil _)
  | cons o rest ih =>
    intro s rec hmem c hc
    cases o with
    | none =>
      have hmem' : some rec ∈ rest := by
        rcases List.mem_cons.mp hmem with h | h
        · exact absurd h (by simp)
        · exact h
      exact ih s rec hmem' c hc
    | some rec' =>
      rcases List.mem_cons.mp hmem with heq | hmem'
      · have hrr : rec' = rec := by
          injection heq with h
          exact h.symm
        subst hrr
        rcases process_record_registers enc dec rec' s c hc with h | h
        · exact Or.inl h
        · exact Or.inr (processLines_seen_mono enc dec rest _ _ h)
      · exact ih _ rec hmem' c hc

theorem processLines_replay (enc : String → List Nat) (dec : List Nat → String) :
    ∀ (lines : List (Option PageRecord)) (t : List String),
      (∀ rec, some rec ∈ lines →
        ∀ c ∈ chunk_text_no_truncation enc dec (clean_boilerplate rec.text),
          c = "" ∨ hash_text c ∈ t) →
      processLines enc dec lines t = ([], t) := by
  intro lines
  induction lines with
  | nil => intro t _; rfl
  | cons o rest ih =>
    intro t h
    cases o with
    | none =>
      show processLines enc dec rest t = ([], t)
      exact ih t (fun rec hmem => h rec (List.mem_cons_of_mem _ hmem))
    | some rec =>
      have hr : process_record enc dec rec t = ([], t) :=
        process_record_replay enc dec rec t (h rec (List.mem_cons_self _ _))
      have ht : processLines enc dec rest t = ([], t) :=
        ih t (fun rec' hmem => h rec' (List.mem_cons_of_mem _ hmem))
      show ((process_record enc dec rec t).1 ++
          (processLines enc dec rest (process_record enc dec rec t).2).1,
        (processLines enc dec rest (process_record enc dec rec t).2).2) = ([], t)
      rw [hr]
      simp [ht]

theorem processLines_append (enc : String → List Nat) (dec : List Nat → String) :
    ∀ (l1 l2 : List (Option PageRecord)) (s : List String),
      processLines enc dec (l1 ++ l2) s =
        ((processLines enc dec l1 s).1 ++
            (processLines enc dec l2 (processLines enc dec l1 s).2).1,
          (processLines enc dec l2 (processLines enc dec l1 s).2).2) := by
  intro l1
  induction l1 with
  | nil => intro l2 s; rfl
  | cons o rest ih =>
    intro l2 s
    cases o with
    | none =>
      show processLines enc dec (rest ++ l2) s = _
      exact ih l2 s
    | some rec =>
      show ((process_record enc dec rec s).1 ++
          (processLines enc dec (rest ++ l2) (process_record enc dec rec s).2).1,
        (processLines enc dec (rest ++ l2) (process_record enc dec rec s).2).2) = _
      rw [ih l2 _]
      simp [processLines, List.append_assoc]

/-- C6: checkpoint resume.  Processing the first `k` lines from an empty
dedup set (run 1, stopped right after a checkpoint flush persisting its
seen-hash set), then re-processing the whole file seeded with that
checkpoint (run 2, whose output is appended to run 1's), writes exactly
the same records — and so the same set of distinct chunk hashes — as one
uncheckpointed pass over the whole file. -/
theorem processLines_checkpoint_resume (enc : String → List Nat) (dec : List Nat → String)
    (lines : List (Option PageRecord)) (k : Nat) :
    (processLines enc dec (lines.take k) []).1 ++
        (processLines enc dec lines (processLines enc dec (lines.take k) []).2).1 =
      (processLines enc dec lines []).1 ∧
    ∀ h, (h ∈ ((processLines enc dec (lines.take k) []).1 ++
          (processLines enc dec lines (processLines enc dec (lines.take k) []).2).1).map
            ChunkRecord.chunk_hash ↔
        h ∈ (processLines enc dec lines []).1.map ChunkRecord.chunk_hash) := by
  have hsplit : lines.take k ++ lines.drop k = lines := List.take_append_drop k lines
  have hfull := processLines_append enc dec (lines.take k) (lines.drop k) []
  rw [hsplit] at hfull
  have hreplay : processLines enc dec (lines.take k)
      (processLines enc dec (lines.take k) []).2 =
        ([], (processLines enc dec (lines.take k) []).2) := by
    apply processLines_replay
    intro rec hmem c hc
    exact processLines_candidates enc dec (lines.take k) [] rec hmem c hc
  have hresume := processLines_append enc dec (lines.take k) (lines.drop k)
      (processLines enc dec (lines.take k) []).2
  rw [hsplit, hreplay] at hresume
  constructor
  · rw [hfull, hresume]
    simp
  · intro h
    rw [hfull, hresume]
    simp

theorem windowsList_eq (ids : List α) (W V : Nat) (hW : 0 < W) (hV : V < W) :
    windowsList ids (W : Int) (V : Int) =
      (windowOffsetsLoop ids.length W (V : Int) (ids.length + 1) 0).map (sliceAt ids) := by
  unfold windowsList
  rw [sliding_windows_ok ids W V hW hV]

theorem windowsList_slice_le (ids : List α) (W V : Nat) (hW : 0 < W) (hV : V < W) :
    ∀ s ∈ windowsList ids (W : Int) (V : Int), s.length ≤ W := by
  intro s hs
  rw [windowsList_eq ids W V hW hV, List.mem_map] at hs
  obtain ⟨p, hp, rfl⟩ := hs
  obtain ⟨h1, h2⟩ := windowOffsetsLoop_mem ids.length W (V : Int) _ _ p hp
  simp only [sliceAt, List.length_take, List.length_drop]
  omega

theorem recStep_new_record_bound (enc : String → List Nat) (dec : List Nat → String)
    (rec : PageRecord) (acc : List ChunkRecord × List String) (chunk : String) :
    ∀ r ∈ (recStep enc dec rec acc chunk).1, r ∈ acc.1 ∨
      ((enc r.text).length ≤ ChunkingConfig.ALLOWED_TOKENS ∨
        ∃ ids : List Nat, ids.length ≤ ChunkingConfig.ALLOWED_TOKENS ∧
          r.text = pyStripStr (dec ids)) := by
  intro r hr
  unfold recStep at hr
  by_cases h1 : chunk = ""
  · simp only [h1, if_true, reduceIte] at hr
    exact Or.inl hr
  · by_cases h2 : hash_text chunk ∈ acc.2
    · simp only [h1, h2, if_false, if_true, reduceIte] at hr
      exact Or.inl hr
    · by_cases h3 : ChunkingConfig.ALLOWED_TOKENS < (enc chunk).length
      · simp only [h1, h2, h3, if_false, if_true, reduceIte] at hr
        rcases List.mem_append.mp hr with h | h
        · exact Or.inl h
        · rw [List.mem_map] at h
          obtain ⟨sc, hsc, rfl⟩ := h
          have hsc' := List.mem_of_mem_filter hsc
          rw [List.mem_map] at hsc'
          obtain ⟨ids, hids, rfl⟩ := hsc'
          refine Or.inr (Or.inr ⟨ids, ?_, rfl⟩)
          exact windowsList_slice_le (enc chunk) ChunkingConfig.ALLOWED_TOKENS
            ChunkingConfig.OVERLAP (by decide) (by decide) ids hids
      · simp only [h1, h2, h3, if_false, if_true, reduceIte] at hr
        rcases List.mem_append.mp hr with h | h
        · exact Or.inl h
        · rcases List.mem_singleton.mp h with rfl
          exact Or.inr (Or.inl (Nat.le_of_not_lt h3))

theorem foldl_recStep_bound (enc : String → List Nat) (dec : List Nat → String)
    (rec : PageRecord) :
    ∀ (cs : List String) (acc : List ChunkRecord × List String),
      (∀ r ∈ acc.1, (enc r.text).length ≤ ChunkingConfig.ALLOWED_TOKENS ∨
        ∃ ids : List Nat, ids.length ≤ ChunkingConfig.ALLOWED_TOKENS ∧
          r.text = pyStripStr (dec ids)) →
      ∀ r ∈ (cs.foldl (recStep enc dec rec) acc).1,
        (enc r.text).length ≤ ChunkingConfig.ALLOWED_TOKENS ∨
        ∃ ids : List Nat, ids.length ≤ ChunkingConfig.ALLOWED_TOKENS ∧
          r.text = pyStripStr (dec ids) := by
  intro cs
  induction cs with
  | nil => intro acc hacc r hr; exact hacc r hr
  | cons c cs ih =>
    intro acc hacc
    refine ih (recStep enc dec rec acc c) ?_
    intro r hr
    rcases recStep_new_record_bound enc dec rec acc c r hr with h | h
    · exact hacc r h
    · exact h

/-- C2 amended: every ChunkRecord emitted by `process_record` either has
token length at most `ALLOWED_TOKENS` (the direct path, which checks
exactly this) or is the stripped decode of a token window of length at
most `ALLOWED_TOKENS` (the re-windowing branch) — but in the latter case
the record's own re-encoded token length is *not* re-checked and can
exceed `ALLOWED_TOKENS` (see the counterexample). -/
theorem process_record_token_bound (enc : String → List Nat) (dec : List Nat → String)
    (rec : PageRecord) (s : List String) :
    ∀ c ∈ (process_record enc dec rec s).1,
      (enc c.text).length ≤ ChunkingConfig.ALLOWED_TOKENS ∨
      ∃ ids : List Nat, ids.length ≤ ChunkingConfig.ALLOWED_TOKENS ∧
        c.text = pyStripStr (dec ids) := by
  rw [process_record_eq]
  exact foldl_recStep_bound enc dec rec _ ([], s) (fun r hr => absurd hr (List.not_mem_nil r))

set_option maxRecDepth 100000 in
/-- Witness for C2's amended claim: the record emitted for `recQuality`
under the identity tokenizer. -/
theorem process_record_token_bound_witness :
    (encId (mkChunkRecord recQuality tQuality (hash_text tQuality)).text).length ≤
        ChunkingConfig.ALLOWED_TOKENS ∨
      ∃ ids : List Nat, ids.length ≤ ChunkingConfig.ALLOWED_TOKENS ∧
        (mkChunkRecord recQuality tQuality (hash_text tQuality)).text = pyStripStr (decId ids) :=
  process_record_token_bound encId decId recQuality []
    (mkChunkRecord recQuality tQuality (hash_text tQuality)) (by decide)

theorem recStep_dedup_preserve (enc : String → List Nat) (dec : List Nat → String)
    (rec : PageRecord) (s0 : List String) (acc : List ChunkRecord × List String)
    (chunk : String)
    (hno : (enc chunk).length ≤ ChunkingConfig.ALLOWED_TOKENS)
    (h1 : List.Pairwise (fun a b => a ≠ b) (acc.1.map ChunkRecord.chunk_hash))
    (h2 : ∀ r ∈ acc.1, r.chunk_hash ∈ acc.2)
    (h3 : ∀ r ∈ acc.1, r.chunk_hash ∉ s0)
    (h4 : ∀ x ∈ s0, x ∈ acc.2) :
    List.Pairwise (fun a b => a ≠ b)
        ((recStep enc dec rec acc chunk).1.map ChunkRecord.chunk_hash) ∧
      (∀ r ∈ (recStep enc dec rec acc chunk).1,
        r.chunk_hash ∈ (recStep enc dec rec acc chunk).2) ∧
      (∀ r ∈ (recStep enc dec rec acc chunk).1, r.chunk_hash ∉ s0) ∧
      (∀ x ∈ s0, x ∈ (recStep enc dec rec acc chunk).2) := by
  by_cases hc : chunk = ""
  · rw [recStep_skip enc dec rec acc chunk (Or.inl hc)]
    exact ⟨h1, h2, h3, h4⟩
  · by_cases hm : hash_text chunk ∈ acc.2
    · rw [recStep_skip enc dec rec acc chunk (Or.inr hm)]
      exact ⟨h1, h2, h3, h4⟩
    · have hstep : recStep enc dec rec acc chunk =
          (acc.1 ++ [mkChunkRecord rec chunk (hash_text chunk)], hash_text chunk :: acc.2) := by
        unfold recStep
        simp [hc, hm, Nat.not_lt.mpr hno]
      rw [hstep]
      have hns0 : hash_text chunk ∉ s0 := fun hx => hm (h4 _ hx)
      refine ⟨?_, ?_, ?_, ?_⟩
      · rw [List.map_append, List.pairwise_append]
        refine ⟨h1, by simp, ?_⟩
        intro a ha b hb
        rw [List.mem_map] at ha
        obtain ⟨r, hr, rfl⟩ := ha
        rcases List.mem_singleton.mp (by simpa using hb) with rfl
        intro heq
        exact hm (heq ▸ h2 r hr)
      · intro r hr
        rcases List.mem_append.mp hr with h | h
        · exact List.mem_cons_of_mem _ (h2 r h)
        · rcases List.mem_singleton.mp h with rfl
          exact List.mem_cons_self _ _
      · intro r hr
        rcases List.mem_append.mp hr with h | h
        · exact h3 r h
        · rcases List.mem_singleton.mp h with rfl
          exact hns0
      · exact fun x hx => List.mem_cons_of_mem _ (h4 x hx)

theorem foldl_recStep_dedup (enc : String → List Nat) (dec : List Nat → String)
    (rec : PageRecord) (s0 : List String) :
    ∀ (cs : List String) (acc : List ChunkRecord × List String),
      (∀ c ∈ cs, (enc c).length ≤ ChunkingConfig.ALLOWED_TOKENS) →
      List.Pairwise (fun a b => a ≠ b) (acc.1.map ChunkRecord.chunk_hash) →
      (∀ r ∈ acc.1, r.chunk_hash ∈ acc.2) →
      (∀ r ∈ acc.1, r.chunk_hash ∉ s0) →
      (∀ x ∈ s0, x ∈ acc.2) →
      List.Pairwise (fun a b => a ≠ b)
          ((cs.foldl (recStep enc dec rec) acc).1.map ChunkRecord.chunk_hash) ∧
        (∀ r ∈ (cs.foldl (recStep enc dec rec) acc).1,
          r.chunk_hash ∈ (cs.foldl (recStep enc dec rec) acc).2) ∧
        (∀ r ∈ (cs.foldl (recStep enc dec rec) acc).1, r.chunk_hash ∉ s0) ∧
        (∀ x ∈ s0, x ∈ (cs.foldl (recStep enc dec rec) acc).2) := by
  intro cs
  induction cs with
  | nil => intro acc _ h1 h2 h3 h4; exact ⟨h1, h2, h3, h4⟩
  | cons c cs ih =>
    intro acc hno h1 h2 h3 h4
    obtain ⟨g1, g2, g3, g4⟩ := recStep_dedup_preserve enc dec rec s0 acc c
      (hno c (List.mem_cons_self c cs)) h1 h2 h3 h4
    exact ih (recStep enc dec rec acc c)
      (fun d hd => hno d (List.mem_cons_of_mem c hd)) g1 g2 g3 g4

theorem process_record_dedup (enc : String → List Nat) (dec : List Nat → String)
    (rec : PageRecord) (s : List String)
    (hno : ∀ c ∈ chunk_text_no_truncation enc dec (clean_boilerplate rec.text),
      (enc c).length ≤ ChunkingConfig.ALLOWED_TOKENS) :
    List.Pairwise (fun a b => a ≠ b)
        ((process_record enc dec rec s).1.map ChunkRecord.chunk_hash) ∧
      (∀ r ∈ (process_record enc dec rec s).1,
        r.chunk_hash ∈ (process_record enc dec rec s).2) ∧
      (∀ r ∈ (process_record enc dec rec s).1, r.chunk_hash ∉ s) ∧
      (∀ x ∈ s, x ∈ (process_record enc dec rec s).2) := by
  rw [process_record_eq]
  exact foldl_recStep_dedup enc dec rec s _ ([], s) hno (by simp)
    (fun r hr => absurd hr (List.not_mem_nil r))
    (fun r hr => absurd hr (List.not_mem_nil r)) (fun x hx => hx)

theorem processLines_dedup (enc : String → List Nat) (dec : List Nat → String) :
    ∀ (lines : List (Option PageRecord)) (s0 : List String),
      (∀ o ∈ lines, noOversize enc dec o = true) →
      List.Pairwise (fun a b => a ≠ b)
          ((processLines enc dec lines s0).1.map ChunkRecord.chunk_hash) ∧
        (∀ r ∈ (processLines enc dec lines s0).1,
          r.chunk_hash ∈ (processLines enc dec lines s0).2) ∧
        (∀ r ∈ (processLines enc dec lines s0).1, r.chunk_hash ∉ s0) ∧
        (∀ x ∈ s0, x ∈ (processLines enc dec lines s0).2) := by
  intro lines
  induction lines with
  | nil =>
    intro s0 _
    exact ⟨by simp [processLines], by simp [processLines], by simp [processLines],
      fun x hx => hx⟩
  | cons o rest ih =>
    intro s0 hno
    cases o with
    | none =>
      exact ih s0 (fun o' ho' => hno o' (List.mem_cons_of_mem _ ho'))
    | some rec =>
      have hnorec : ∀ c ∈ chunk_text_no_truncation enc dec (clean_boilerplate rec.text),
          (enc c).length ≤ ChunkingConfig.ALLOWED_TOKENS := by
        have := hno (some rec) (List.mem_cons_self _ _)
        simp only [noOversize, List.all_eq_true, decide_eq_true_eq] at this
        exact this
      obtain ⟨p1, p2, p3, p4⟩ := process_record_dedup enc dec rec s0 hnorec
      obtain ⟨q1, q2, q3, q4⟩ :=
        ih (process_record enc dec rec s0).2
          (fun o' ho' => hno o' (List.mem_cons_of_mem _ ho'))
      show List.Pairwise _ (((process_record enc dec rec s0).1 ++
            (processLines enc dec rest (process_record enc dec rec s0).2).1).map
          ChunkRecord.chunk_hash) ∧ _
      refine ⟨?_, ?_, ?_, ?_⟩
      · rw [List.map_append, List.pairwise_append]
        refine ⟨p1, q1, ?_⟩
        intro a ha b hb
        rw [List.mem_map] at ha hb
        obtain ⟨r, hr, rfl⟩ := ha
        obtain ⟨r', hr', rfl⟩ := hb
        intro heq
        exact q3 r' hr' (heq ▸ p2 r hr)
      · intro r hr
        rcases List.mem_append.mp hr with h | h
        · exact processLines_seen_mono enc dec rest _ _ (p2 r h)
        · exact q2 r h
      · intro r hr
        rcases List.mem_append.mp hr with h | h
        · exact p3 r h
        · exact fun hx => q3 r h (p4 _ hx)
      · exact fun x hx => q4 x (p4 x hx)

/-- C1 amended: in a run in which no candidate chunk's re-encoded token
length exceeds `ALLOWED_TOKENS` (so the re-windowing branch is never
entered — in particular whenever decoding causes no token growth), no
two emitted ChunkRecords share a `chunk_hash` and none repeats a hash
from the checkpoint-seeded dedup set; feeding the same chunk text twice
in one run yields exactly one ChunkRecord.  Sub-chunks emitted by the
re-windowing branch, however, bypass `seen_hashes` registration and can
repeat a hash (see the counterexample). -/
theorem processLines_unique_hashes (enc : String → List Nat) (dec : List Nat → String)
    (lines : List (Option PageRecord)) (s0 : List String)
    (hno : ∀ o ∈ lines, noOversize enc dec o = true) :
    List.Pairwise (fun a b => a ≠ b)
        ((processLines enc dec lines s0).1.map ChunkRecord.chunk_hash) ∧
      ∀ r ∈ (processLines enc dec lines s0).1, r.chunk_hash ∉ s0 := by
  obtain ⟨h1, _, h3, _⟩ := processLines_dedup enc dec lines s0 hno
  exact ⟨h1, h3⟩

set_option maxRecDepth 100000 in
/-- Witness for C1's amended claim: the same quality record fed twice
under the identity tokenizer yields pairwise-distinct chunk hashes (one
record; the duplicate is dropped). -/
theorem processLines_unique_hashes_witness :
    List.Pairwise (fun a b => a ≠ b)
        ((processLines encId decId [some recQuality, some recQuality] []).1.map
          ChunkRecord.chunk_hash) ∧
      ∀ r ∈ (processLines encId decId [some recQuality, some recQuality] []).1,
        r.chunk_hash ∉ ([] : List String) :=
  processLines_unique_hashes encId decId [some recQuality, some recQuality] [] (by decide)
